import Mathlib

/-!
Verification of the key-value source loading pipeline of `api/kv/kv.go`.

Go strings and byte slices are modelled uniformly as lists of byte values
(`GoStr := List Nat`, each entry `< 256` on real inputs); Go's multiple
return `(T, error)` is modelled as `Except GoErr T`.  External collaborators
(the filesystem loaders, the key-name validator, the process environment,
the age / SSH identity parsers and the two decryption primitives, which
live outside this package) are gathered in the `Ext` structure and kept
opaque, exactly as the specification treats them.
-/

namespace KV

/-- A Go string / byte slice, as its list of byte values. -/
abbrev GoStr := List Nat

/-- UTF-8 encoding of a single code point (RFC 3629), used to turn Lean
string literals into Go byte strings and to reason about decoding. -/
def utf8Encode1 (c : Nat) : List Nat :=
  if c < 0x80 then [c]
  else if c < 0x800 then [0xC0 + c / 64, 0x80 + c % 64]
  else if c < 0x10000 then [0xE0 + c / 4096, 0x80 + c / 64 % 64, 0x80 + c % 64]
  else [0xF0 + c / 262144, 0x80 + c / 4096 % 64, 0x80 + c / 64 % 64, 0x80 + c % 64]

/-- UTF-8 encoding of a list of code points. -/
def utf8Encode (cs : List Nat) : List Nat :=
  (cs.map utf8Encode1).flatten

/-- The bytes of a Lean string literal, i.e. the bytes of the corresponding
Go string literal. -/
def strB (s : String) : GoStr :=
  utf8Encode (s.data.map Char.toNat)

/-- The code points of a Lean string literal. -/
def cpOf (s : String) : List Nat :=
  s.data.map Char.toNat

deriving instance DecidableEq for Except

/-- A Go error value.  `mk` is `fmt.Errorf`/`errors.New` carrying its
message bytes; `wrap` is `github.com/pkg/errors.Wrap`, which keeps the
cause and a context message (rendered as `msg ++ ": " ++ cause`). -/
inductive GoErr : Type where
  | mk : GoStr → GoErr
  | wrap : GoStr → GoErr → GoErr
deriving DecidableEq, Repr

/-- `types.Pair` from the kustomize API: one key/value pair. -/
structure Pair where
  Key : GoStr
  Value : GoStr
deriving DecidableEq, Repr

/-- `types.KvPairSources`: the four ordered source lists fed to `Load`. -/
structure KvPairSources where
  LiteralSources : List GoStr
  FileSources : List GoStr
  EnvSources : List GoStr
  AgeIdentitySources : List GoStr
deriving DecidableEq, Repr

/-- An opaque age decryption identity (`age.Identity`); the loader never
inspects it, it is only threaded to the decryption primitives. -/
structure AgeIdentity where
  tag : Nat
deriving DecidableEq, Repr

/-- The external collaborators of the `kv` package, kept abstract:
`ldr`/`rootLdr` filesystem loaders, the key-name validator, the process
environment (`envVar k = none` models an unset variable), `filepath.Abs`,
`age.ParseIdentities`, `ioutil.ReadFile`, `parseSSHIdentity`,
`os.ExpandEnv`, and the two decryption primitives
(`decryptValueWithAge`, `decryptInlineYAMLWithAge`) that the repository
defines outside this file.  The spec treats all of these as opaque. -/
structure Ext where
  ldrLoad : GoStr → Except GoErr GoStr
  rootLdrLoad : GoStr → Except GoErr GoStr
  isEnvVarName : GoStr → Option GoErr
  envVar : GoStr → Option GoStr
  filepathAbs : GoStr → Except GoErr GoStr
  parseIdentities : GoStr → Except GoErr (List AgeIdentity)
  readFile : GoStr → Except GoErr GoStr
  parseSSHIdentity : GoStr → GoStr → Except GoErr (List AgeIdentity)
  expandEnv : GoStr → GoStr
  decryptValueWithAge : GoStr → List AgeIdentity → Except GoErr GoStr
  decryptInlineYAMLWithAge : GoStr → List AgeIdentity → Except GoErr GoStr

/-- `os.Getenv`: the value of an environment variable, the empty string
when the variable is unset. -/
def osGetenv (x : Ext) (k : GoStr) : GoStr :=
  (x.envVar k).getD []

/-- `strings.HasPrefix` / `bytes.HasPrefix` on byte strings. -/
def startsWithB (l pre : GoStr) : Bool :=
  pre.isPrefixOf l

/-- `strings.HasSuffix` on byte strings. -/
def endsWithB (l suf : GoStr) : Bool :=
  suf.isSuffixOf l

/-- `strings.TrimPrefix s pre`: drop `pre` when it is a leading copy. -/
def goTrimHead (l pre : GoStr) : GoStr :=
  if startsWithB l pre then l.drop pre.length else l

/-- `strings.TrimSuffix s suf`: drop `suf` when it is a trailing copy. -/
def goTrimTail (l suf : GoStr) : GoStr :=
  if endsWithB l suf then l.take (l.length - suf.length) else l

/-- `strings.TrimRight s cutset`: remove ALL trailing bytes that belong to
the cutset (for the ASCII cutsets used here, Go's rune-based trimming
coincides with byte-based trimming). -/
def goTrimRight (l cut : GoStr) : GoStr :=
  (l.reverse.dropWhile (fun b => b ∈ cut)).reverse

/-- `strings.Trim s cutset`: remove ALL leading and trailing bytes that
belong to the cutset. -/
def goTrim (l cut : GoStr) : GoStr :=
  goTrimRight (l.dropWhile (fun b => b ∈ cut)) cut

/-- The byte of `'='`. -/
def eqByte : Nat := 61

/-- The cutset `"\"'"` used by `parseLiteralSource` (double and single
quote). -/
def quoteCut : GoStr := [34, 39]

/-- The cutset `".age"` used with `strings.TrimRight`. -/
def dotAgeCut : GoStr := strB ".age"

/-- `path.Base` from Go's `path` package: last element of the path, after
removing trailing slashes; `"."` for the empty path, `"/"` when everything
was slashes. -/
def pathBase (p : GoStr) : GoStr :=
  if p = [] then [46]
  else
    let p1 := (p.reverse.dropWhile (fun b => b = 47)).reverse
    let p2 := (p1.reverse.takeWhile (fun b => b ≠ 47)).reverse
    if p2 = [] then [47] else p2

/-- `parseLiteralSource` (kv.go): reject a leading `=`; split after the
first `=` (absence of `=` is a failure since `strings.SplitN` then yields a
single component); trim all leading/trailing quote characters from the
value with `strings.Trim(items[1], "\"'")`. -/
def parseLiteralSource (source : GoStr) : Except GoErr (GoStr × GoStr) :=
  if source.head? = some eqByte then
    .error (.mk (strB "invalid literal source " ++ source ++ strB ", expected key=value"))
  else if eqByte ∈ source then
    .ok (source.takeWhile (fun b => b ≠ eqByte),
         goTrim ((source.dropWhile (fun b => b ≠ eqByte)).tail) quoteCut)
  else
    .error (.mk (strB "invalid literal source " ++ source ++ strB ", expected key=value"))

/-- `parseFileSource` (kv.go): switch on the number of `=` bytes, in the
source's order of cases. -/
def parseFileSource (source : GoStr) : Except GoErr (GoStr × GoStr) :=
  let n := source.count eqByte
  if n = 0 then .ok (pathBase source, source)
  else if n = 1 ∧ startsWithB source [eqByte] then
    .error (.mk (strB "key name for file path " ++ goTrimHead source [eqByte] ++ strB " missing"))
  else if n = 1 ∧ endsWithB source [eqByte] then
    .error (.mk (strB "file path for key name " ++ goTrimTail source [eqByte] ++ strB " missing"))
  else if n > 1 then
    .error (.mk (strB "key names or file paths cannot contain '='"))
  else
    .ok (source.takeWhile (fun b => b ≠ eqByte),
         (source.dropWhile (fun b => b ≠ eqByte)).tail)

/-- One step of strict UTF-8 decoding, following Go's
`unicode/utf8.DecodeRune` acceptance rules (no overlong forms, no
surrogates, no code points above U+10FFFF): the decoded code point and the
remaining bytes, or `none` when the head of the list is not a well-formed
encoding. -/
def decodeRune (l : List Nat) : Option (Nat × List Nat) :=
  match l with
  | [] => none
  | b :: rest =>
    if b < 0x80 then some (b, rest)
    else if 0xC2 ≤ b ∧ b ≤ 0xDF then
      match rest with
      | b1 :: r2 =>
        if 0x80 ≤ b1 ∧ b1 ≤ 0xBF then some ((b - 0xC0) * 64 + (b1 - 0x80), r2) else none
      | [] => none
    else if 0xE0 ≤ b ∧ b ≤ 0xEF then
      match rest with
      | b1 :: b2 :: r3 =>
        if (if b = 0xE0 then 0xA0 ≤ b1 ∧ b1 ≤ 0xBF
            else if b = 0xED then 0x80 ≤ b1 ∧ b1 ≤ 0x9F
            else 0x80 ≤ b1 ∧ b1 ≤ 0xBF) ∧ (0x80 ≤ b2 ∧ b2 ≤ 0xBF) then
          some ((b - 0xE0) * 4096 + (b1 - 0x80) * 64 + (b2 - 0x80), r3)
        else none
      | _ => none
    else if 0xF0 ≤ b ∧ b ≤ 0xF4 then
      match rest with
      | b1 :: b2 :: b3 :: r4 =>
        if (if b = 0xF0 then 0x90 ≤ b1 ∧ b1 ≤ 0xBF
            else if b = 0xF4 then 0x80 ≤ b1 ∧ b1 ≤ 0x8F
            else 0x80 ≤ b1 ∧ b1 ≤ 0xBF) ∧ (0x80 ≤ b2 ∧ b2 ≤ 0xBF) ∧ (0x80 ≤ b3 ∧ b3 ≤ 0xBF) then
          some ((b - 0xF0) * 262144 + (b1 - 0x80) * 4096 + (b2 - 0x80) * 64 + (b3 - 0x80), r4)
        else none
      | _ => none
    else none

/-- Full strict UTF-8 decoding as a fuelled `decodeRune` loop (each step
consumes at least one byte, so `l.length` is always enough fuel). -/
def utf8DecodeF : Nat → List Nat → Option (List Nat)
  | _, [] => some []
  | 0, _ :: _ => none
  | fuel + 1, b :: rest =>
    match decodeRune (b :: rest) with
    | none => none
    | some (c, r) => (utf8DecodeF fuel r).map (fun cs => c :: cs)

/-- Full strict UTF-8 decoding of a byte list into its code points;
`none` when some position is not well formed. -/
def utf8Decode (l : List Nat) : Option (List Nat) :=
  utf8DecodeF l.length l

/-- `unicode/utf8.Valid`: the byte list is entirely well-formed UTF-8. -/
def utf8Valid (l : List Nat) : Bool :=
  (utf8Decode l).isSome

/-- A Unicode scalar value: any code point except the surrogate range,
below U+110000 — exactly the code points strict UTF-8 can decode to. -/
def validCp (c : Nat) : Prop :=
  c < 0xD800 ∨ (0xE000 ≤ c ∧ c < 0x110000)

/-- The code points satisfying Go's `unicode.IsSpace` (the Unicode
White_Space property). -/
def spaceCps : List Nat :=
  [9, 10, 11, 12, 13, 32, 0x85, 0xA0, 0x1680,
   0x2000, 0x2001, 0x2002, 0x2003, 0x2004, 0x2005, 0x2006, 0x2007,
   0x2008, 0x2009, 0x200A, 0x2028, 0x2029, 0x202F, 0x205F, 0x3000]

/-- `unicode.IsSpace` on a code point. -/
def isSpaceCp (c : Nat) : Bool :=
  spaceCps.contains c

/-- The fuelled loop of `bytes.TrimLeftFunc(line, unicode.IsSpace)`:
repeatedly decode the leading rune and drop it while it is white space; a
position that is not well-formed UTF-8 decodes to U+FFFD in Go, which is
not white space, so trimming stops there. -/
def trimLeftSpaceBF : Nat → List Nat → List Nat
  | _, [] => []
  | 0, l => l
  | fuel + 1, b :: rest =>
    match decodeRune (b :: rest) with
    | none => b :: rest
    | some (c, r) => if isSpaceCp c then trimLeftSpaceBF fuel r else b :: rest

/-- `bytes.TrimLeftFunc(line, unicode.IsSpace)`. -/
def trimLeftSpaceB (l : List Nat) : List Nat :=
  trimLeftSpaceBF l.length l

/-- The UTF-8 byte-order mark (`var utf8bom = []byte{0xEF, 0xBB, 0xBF}`). -/
def utf8bom : GoStr := [0xEF, 0xBB, 0xBF]

/-- Decimal digits of a natural number, as ASCII bytes. -/
def natDecB (n : Nat) : GoStr :=
  (Nat.toDigits 10 n).map Char.toNat

/-- `fmt` rendering of a `[]byte` under the `%d` verb: `[e1 e2 ...]` with
each element in decimal. -/
def goFmtBytesDec (l : GoStr) : GoStr :=
  [91] ++ ((l.map natDecB).intersperse [32]).flatten ++ [93]

/-- `fmt` rendering of a `[]string` under the `%v` verb: `[s1 s2 ...]`
with each element printed raw. -/
def goFmtStrSlice (l : List GoStr) : GoStr :=
  [91] ++ (l.intersperse [32]).flatten ++ [93]

/-- `keyValuesFromLine` (kv.go): parse one env-file line.  Returns a pair
with an empty key for blank/comment lines.  Note that the invalid-UTF-8
error renders the line's bytes under `%d` and the line itself under `%v` —
`fmt.Errorf("line %d has invalid utf8 bytes : %v", line, string(line))`
passes `line`, not `currentLine`, as the `%d` argument. -/
def keyValuesFromLine (x : Ext) (line : GoStr) (currentLine : Nat) : Except GoErr Pair :=
  if ¬ utf8Valid line then
    .error (.mk (strB "line " ++ goFmtBytesDec line ++ strB " has invalid utf8 bytes : " ++ line))
  else
    let line1 := if currentLine = 0 then goTrimHead line utf8bom else line
    let line2 := trimLeftSpaceB line1
    if line2 = [] ∨ line2.head? = some 35 then .ok ⟨[], []⟩
    else
      let key := line2.takeWhile (fun b => b ≠ eqByte)
      match x.isEnvVarName key with
      | some e => .error e
      | none =>
        if eqByte ∈ line2 then .ok ⟨key, (line2.dropWhile (fun b => b ≠ eqByte)).tail⟩
        else .ok ⟨key, osGetenv x key⟩

/-- `bufio.Scanner` with `ScanLines`: split on `'\n'`, drop one trailing
`'\r'` from each line; a trailing newline does not produce a final empty
line, and empty content produces no lines. -/
def goScanLines (content : GoStr) : List GoStr :=
  if content = [] then []
  else
    let parts := content.splitOn 10
    let parts1 := if parts.getLast? = some [] then parts.dropLast else parts
    parts1.map (fun l => goTrimTail l [13])

/-- The loop body of `keyValuesFromLines`: parse each line at its index,
skip pairs with an empty key, abort on the first error. -/
def kvFromLinesAux (x : Ext) : List GoStr → Nat → Except GoErr (List Pair)
  | [], _ => .ok []
  | l :: rest, i =>
    match keyValuesFromLine x l i with
    | .error e => .error e
    | .ok kv =>
      match kvFromLinesAux x rest (i + 1) with
      | .error e => .error e
      | .ok more => .ok (if kv.Key = [] then more else kv :: more)

/-- `keyValuesFromLines` (kv.go). -/
def keyValuesFromLines (x : Ext) (content : GoStr) : Except GoErr (List Pair) :=
  kvFromLinesAux x (goScanLines content) 0

/-- The age armor header constant `armor.Header` from `filippo.io/age`. -/
def armorHeader : GoStr := strB "-----BEGIN AGE ENCRYPTED FILE-----"

/-- `keyValuesFromLiteralSources` (kv.go): parse each literal, and when the
parsed key ends in `.age`, trim the key with `strings.TrimRight(k, ".age")`
and decrypt the value — inline-YAML mode when the trimmed key ends in
`.yaml`/`.yml`, whole-value mode otherwise. -/
def keyValuesFromLiteralSources (x : Ext) : List GoStr → List AgeIdentity → Except GoErr (List Pair)
  | [], _ => .ok []
  | s :: ss, ids =>
    match parseLiteralSource s with
    | .error e => .error e
    | .ok (k, v) =>
      if endsWithB k (strB ".age") then
        let k1 := goTrimRight k dotAgeCut
        match (if endsWithB k1 (strB ".yaml") ∨ endsWithB k1 (strB ".yml")
               then x.decryptInlineYAMLWithAge v ids
               else x.decryptValueWithAge v ids) with
        | .error e => .error e
        | .ok v1 =>
          match keyValuesFromLiteralSources x ss ids with
          | .error e => .error e
          | .ok more => .ok (⟨k1, v1⟩ :: more)
      else
        match keyValuesFromLiteralSources x ss ids with
        | .error e => .error e
        | .ok more => .ok (⟨k, v⟩ :: more)

/-- `keyValuesFromFileSources` (kv.go): parse each file spec, load the
path's content, and when the path ends in `.age`, trim the key with
`strings.TrimRight(k, ".age")` and decrypt — inline-YAML mode when the
trimmed key ends in `.yaml`/`.yml` AND the content does not start with the
armor header, whole-value mode otherwise. -/
def keyValuesFromFileSources (x : Ext) : List GoStr → List AgeIdentity → Except GoErr (List Pair)
  | [], _ => .ok []
  | s :: ss, ids =>
    match parseFileSource s with
    | .error e => .error e
    | .ok (k, fPath) =>
      match x.ldrLoad fPath with
      | .error e => .error e
      | .ok content =>
        if endsWithB fPath (strB ".age") then
          let k1 := goTrimRight k dotAgeCut
          match (if (endsWithB k1 (strB ".yaml") ∨ endsWithB k1 (strB ".yml"))
                     ∧ ¬ startsWithB content armorHeader
                 then x.decryptInlineYAMLWithAge content ids
                 else x.decryptValueWithAge content ids) with
          | .error e => .error e
          | .ok content1 =>
            match keyValuesFromFileSources x ss ids with
            | .error e => .error e
            | .ok more => .ok (⟨k1, content1⟩ :: more)
        else
          match keyValuesFromFileSources x ss ids with
          | .error e => .error e
          | .ok more => .ok (⟨k, content⟩ :: more)

/-- `keyValuesFromEnvFiles` (kv.go): load each env file, whole-value
decrypt it when the path ends in `.age`, then parse its lines. -/
def keyValuesFromEnvFiles (x : Ext) : List GoStr → List AgeIdentity → Except GoErr (List Pair)
  | [], _ => .ok []
  | p :: ps, ids =>
    match x.ldrLoad p with
    | .error e => .error e
    | .ok content =>
      match (if endsWithB p (strB ".age") then x.decryptValueWithAge content ids
             else .ok content) with
      | .error e => .error e
      | .ok content1 =>
        match keyValuesFromLines x content1 with
        | .error e => .error e
        | .ok more =>
          match keyValuesFromEnvFiles x ps ids with
          | .error e => .error e
          | .ok rest => .ok (more ++ rest)

/-- The explicit-identity loop of `getAgeIdentities`: for each source path,
make it absolute, load it through the root loader and parse it as an age
identity file; any failure is fatal. -/
def getAgeIdentitiesExplicit (x : Ext) : List GoStr → Except GoErr (List AgeIdentity)
  | [] => .ok []
  | p :: ps =>
    match x.filepathAbs p with
    | .error e => .error e
    | .ok ap =>
      match x.rootLdrLoad ap with
      | .error e => .error e
      | .ok content =>
        match x.parseIdentities content with
        | .error e => .error e
        | .ok id =>
          match getAgeIdentitiesExplicit x ps with
          | .error e => .error e
          | .ok rest => .ok (id ++ rest)

/-- One opportunistic SSH-key probe of `getAgeIdentities`: read the file
and parse it as an SSH identity; any failure is silently ignored. -/
def sshProbe (x : Ext) (p : GoStr) : List AgeIdentity :=
  match x.readFile p with
  | .error _ => []
  | .ok content =>
    match x.parseSSHIdentity p content with
    | .error _ => []
    | .ok sshids => sshids

/-- `getAgeIdentities` (kv.go): explicit identity files (fatal on error),
then the two well-known SSH key locations (best effort). -/
def getAgeIdentities (x : Ext) (sources : List GoStr) : Except GoErr (List AgeIdentity) :=
  match (if sources.length > 0 then getAgeIdentitiesExplicit x sources else .ok []) with
  | .error e => .error e
  | .ok ids =>
    .ok (ids ++ sshProbe x (x.expandEnv (strB "$HOME/.ssh/id_rsa"))
             ++ sshProbe x (x.expandEnv (strB "$HOME/.ssh/id_ed25519")))

/-- `Load` (kv.go): identities, then env sources, then literal sources,
then file sources, short-circuiting on the first error with the category
name and that category's input list wrapped around it (every error path in
Go returns a nil pair slice, modelled by `Except.error`). -/
def Load (x : Ext) (args : KvPairSources) : Except GoErr (List Pair) :=
  match getAgeIdentities x args.AgeIdentitySources with
  | .error err =>
    .error (.wrap (strB "age identity source files: " ++ goFmtStrSlice args.AgeIdentitySources) err)
  | .ok ids =>
    match keyValuesFromEnvFiles x args.EnvSources ids with
    | .error err =>
      .error (.wrap (strB "env source files: " ++ goFmtStrSlice args.EnvSources) err)
    | .ok p1 =>
      match keyValuesFromLiteralSources x args.LiteralSources ids with
      | .error err =>
        .error (.wrap (strB "literal sources " ++ goFmtStrSlice args.LiteralSources) err)
      | .ok p2 =>
        match keyValuesFromFileSources x args.FileSources ids with
        | .error err =>
          .error (.wrap (strB "file sources: " ++ goFmtStrSlice args.FileSources) err)
        | .ok p3 => .ok (p1 ++ p2 ++ p3)

/-- Left-to-right effectful map over `Except`: the per-item results, in
input order, aborting at the first failing item.  Used to state order and
error-propagation properties of the source-category loops. -/
def seqMap (f : α → Except GoErr β) : List α → Except GoErr (List β)
  | [] => .ok []
  | a :: as =>
    match f a with
    | .error e => .error e
    | .ok b =>
      match seqMap f as with
      | .error e => .error e
      | .ok bs => .ok (b :: bs)

/-- The processing of one literal source inside `keyValuesFromLiteralSources`. -/
def litPairItem (x : Ext) (ids : List AgeIdentity) (s : GoStr) : Except GoErr Pair :=
  match parseLiteralSource s with
  | .error e => .error e
  | .ok (k, v) =>
    if endsWithB k (strB ".age") then
      let k1 := goTrimRight k dotAgeCut
      match (if endsWithB k1 (strB ".yaml") ∨ endsWithB k1 (strB ".yml")
             then x.decryptInlineYAMLWithAge v ids
             else x.decryptValueWithAge v ids) with
      | .error e => .error e
      | .ok v1 => .ok ⟨k1, v1⟩
    else .ok ⟨k, v⟩

/-- The processing of one file source inside `keyValuesFromFileSources`. -/
def filePairItem (x : Ext) (ids : List AgeIdentity) (s : GoStr) : Except GoErr Pair :=
  match parseFileSource s with
  | .error e => .error e
  | .ok (k, fPath) =>
    match x.ldrLoad fPath with
    | .error e => .error e
    | .ok content =>
      if endsWithB fPath (strB ".age") then
        let k1 := goTrimRight k dotAgeCut
        match (if (endsWithB k1 (strB ".yaml") ∨ endsWithB k1 (strB ".yml"))
                   ∧ ¬ startsWithB content armorHeader
               then x.decryptInlineYAMLWithAge content ids
               else x.decryptValueWithAge content ids) with
        | .error e => .error e
        | .ok content1 => .ok ⟨k1, content1⟩
      else .ok ⟨k, content⟩

/-- The processing of one env-file path inside `keyValuesFromEnvFiles`. -/
def envFileItem (x : Ext) (ids : List AgeIdentity) (p : GoStr) : Except GoErr (List Pair) :=
  match x.ldrLoad p with
  | .error e => .error e
  | .ok content =>
    match (if endsWithB p (strB ".age") then x.decryptValueWithAge content ids
           else .ok content) with
    | .error e => .error e
    | .ok content1 => keyValuesFromLines x content1

/-- The processing of one explicit identity path inside `getAgeIdentities`. -/
def idItem (x : Ext) (p : GoStr) : Except GoErr (List AgeIdentity) :=
  match x.filepathAbs p with
  | .error e => .error e
  | .ok ap =>
    match x.rootLdrLoad ap with
    | .error e => .error e
    | .ok content => x.parseIdentities content

/-- The file-source spec parser as the claim states it: case analysis on
the count of `=` characters — zero gives (basename, verbatim source); one
at the start is a missing-key error; one at the end is a missing-path
error; more than one is an error; exactly one elsewhere splits the string
at that `=` into (key, path).  (The error messages themselves are outside
the claim; the code's messages are reused.) -/
def parseFileSpecClaim (s : GoStr) : Except GoErr (GoStr × GoStr) :=
  match s.count eqByte with
  | 0 => .ok (pathBase s, s)
  | 1 =>
    if s.head? = some eqByte then
      .error (.mk (strB "key name for file path " ++ s.tail ++ strB " missing"))
    else if s.getLast? = some eqByte then
      .error (.mk (strB "file path for key name " ++ s.dropLast ++ strB " missing"))
    else
      let pre := s.takeWhile (fun b => b ≠ eqByte)
      .ok (pre, s.drop (pre.length + 1))
  | _ + 2 => .error (.mk (strB "key names or file paths cannot contain '='"))

/-- The env-file line parser as §4.3 of the spec states it, working on the
line's decoded code points: (1) well-formedness is the caller's decode
hypothesis; (2) only at index 0, strip a leading byte-order mark (the code
point U+FEFF); (3) strip all leading Unicode white space; (4) an empty or
`#`-starting remainder is the skip marker; (5) split on the first `=`;
(6) validate the key; (7) a present rest segment is the value verbatim;
(8) with no `=`, look the key up in the process environment, the empty
string when unset. -/
def specLineParse (x : Ext) (cs : List Nat) (idx : Nat) : Except GoErr Pair :=
  let cs1 := if idx = 0 then (if cs.head? = some 0xFEFF then cs.tail else cs) else cs
  let cs2 := cs1.dropWhile isSpaceCp
  if cs2 = [] ∨ cs2.head? = some 35 then .ok ⟨[], []⟩
  else
    let key := utf8Encode (cs2.takeWhile (fun c => c ≠ eqByte))
    match x.isEnvVarName key with
    | some e => .error e
    | none =>
      if eqByte ∈ cs2 then .ok ⟨key, utf8Encode ((cs2.dropWhile (fun c => c ≠ eqByte)).tail)⟩
      else .ok ⟨key, osGetenv x key⟩

/-- A concrete instantiation of the external collaborators, used to
evaluate the pipeline on closed inputs: the loader returns the bytes
`"CT"` for every path, the validator accepts everything, `FOO` is the only
set environment variable, whole-value decryption is the identity and
inline-YAML decryption tags its input with `"IY"`, and no SSH keys are
readable. -/
def extW : Ext where
  ldrLoad := fun _ => .ok (strB "CT")
  rootLdrLoad := fun _ => .error (.mk [])
  isEnvVarName := fun _ => none
  envVar := fun k => if k = strB "FOO" then some (strB "fooval") else none
  filepathAbs := fun p => .ok p
  parseIdentities := fun _ => .error (.mk [])
  readFile := fun _ => .error (.mk [])
  parseSSHIdentity := fun _ _ => .error (.mk [])
  expandEnv := fun p => p
  decryptValueWithAge := fun c _ => .ok c
  decryptInlineYAMLWithAge := fun c _ => .ok (strB "IY" ++ c)

/-! ### Helper lemmas -/

theorem takeWhile_append_of_all {p : Nat → Bool} {xs : List Nat} (ys : List Nat)
    (h : ∀ b ∈ xs, p b) : (xs ++ ys).takeWhile p = xs ++ ys.takeWhile p := by
  induction xs with
  | nil => simp
  | cons a t ih =>
    simp only [List.cons_append, List.takeWhile_cons]
    rw [if_pos (h a (by simp)), ih (fun b hb => h b (by simp [hb]))]

theorem dropWhile_append_of_all {p : Nat → Bool} {xs : List Nat} (ys : List Nat)
    (h : ∀ b ∈ xs, p b) : (xs ++ ys).dropWhile p = ys.dropWhile p := by
  induction xs with
  | nil => simp
  | cons a t ih =>
    simp only [List.cons_append, List.dropWhile_cons]
    rw [if_pos (h a (by simp)), ih (fun b hb => h b (by simp [hb]))]

theorem dropWhile_of_mem {a : Nat} {l : List Nat} (h : a ∈ l) :
    ∃ t, l.dropWhile (fun b => b ≠ a) = a :: t := by
  induction l with
  | nil => cases h
  | cons b t ih =>
    by_cases hb : b = a
    · subst hb
      exact ⟨t, by simp [List.dropWhile_cons]⟩
    · rcases List.mem_cons.mp h with h1 | h2
      · exact absurd h1.symm hb
      · obtain ⟨u, hu⟩ := ih h2
        refine ⟨u, ?_⟩
        rw [List.dropWhile_cons, if_pos (by simp [hb]), hu]

/-! ### C5: quote trimming in `parseLiteralSource` -/

/-- C5, counterexample: on `a=""x""` the code returns the value `x` — the
inner quote layer is removed as well, so stripping is NOT limited to one
layer as the claim states (the claim would give `"x"`). -/
theorem literal_quote_trim_not_one_layer :
    parseLiteralSource (strB "a=\"\"x\"\"") = .ok (strB "a", strB "x") ∧
    parseLiteralSource (strB "a=\"\"x\"\"") ≠ .ok (strB "a", strB "\"x\"") := by
  constructor
  · decide
  · decide

/-- C5, amended: for a literal `key=value` with a non-empty `=`-free key,
`parseLiteralSource` strips ALL leading and ALL trailing quote characters
(double or single, independently on each end, not necessarily matching)
from the value — nested quote layers are removed too. -/
theorem literal_quote_trim_strips_all_layers (k v : GoStr) (hk : k ≠ []) (hq : eqByte ∉ k) :
    parseLiteralSource (k ++ [eqByte] ++ v)
      = .ok (k, ((v.dropWhile (fun b => b ∈ quoteCut)).reverse.dropWhile
                   (fun b => b ∈ quoteCut)).reverse) := by
  have hall : ∀ b ∈ k, (fun b => decide (b ≠ eqByte)) b = true := by
    intro b hb
    simp only [decide_eq_true_eq]
    intro he
    exact hq (he ▸ hb)
  have hhead : (k ++ [eqByte] ++ v).head? ≠ some eqByte := by
    cases k with
    | nil => exact absurd rfl hk
    | cons a t =>
      simp only [List.cons_append, List.head?_cons]
      intro he
      injection he with he2
      exact hq (List.mem_cons.mpr (Or.inl he2.symm))
  have hmem : eqByte ∈ k ++ [eqByte] ++ v := by simp
  have htake : (k ++ [eqByte] ++ v).takeWhile (fun b => b ≠ eqByte) = k := by
    rw [List.append_assoc, takeWhile_append_of_all _ hall]
    simp [List.takeWhile_cons]
  have hdrop : (k ++ [eqByte] ++ v).dropWhile (fun b => b ≠ eqByte) = eqByte :: v := by
    rw [List.append_assoc, dropWhile_append_of_all _ hall]
    simp [List.dropWhile_cons]
  rw [parseLiteralSource, if_neg hhead, if_pos hmem, htake, hdrop]
  simp [goTrim, goTrimRight]

/-- C5 witness: `a=""x""` satisfies the amended statement, with value `x`. -/
theorem literal_quote_trim_strips_all_layers_witness :
    parseLiteralSource (strB "a" ++ [eqByte] ++ strB "\"\"x\"\"") = .ok (strB "a", strB "x") := by
  rw [literal_quote_trim_strips_all_layers (strB "a") (strB "\"\"x\"\"") (by decide) (by decide)]
  decide

/-! ### C10: a trailing `=` yields an empty value, not an error -/

/-- C10: for every non-empty `=`-free key `k`, the literal `k=` parses
successfully to `(k, "")` — the empty value is accepted even though the
function's own doc comment says empty values are rejected. -/
theorem literal_trailing_eq_gives_empty_value (k : GoStr) (hk : k ≠ []) (hq : eqByte ∉ k) :
    parseLiteralSource (k ++ [eqByte]) = .ok (k, []) := by
  have h := literal_quote_trim_strips_all_layers k [] hk hq
  simpa using h

/-- C10 witness: `key=` parses to `(key, "")`. -/
theorem literal_trailing_eq_gives_empty_value_witness :
    parseLiteralSource (strB "key" ++ [eqByte]) = .ok (strB "key", []) :=
  literal_trailing_eq_gives_empty_value (strB "key") (by decide) (by decide)

/-! ### C9: the invalid-UTF-8 error does not cite the line index -/

/-- C9: the invalid-encoding error is INDEPENDENT of the line index — for
the invalid line `[255]` every index produces the identical error, whose
message renders the line's bytes (`[255]`) where the claim (and the format
string `"line %d ..."`) intend the numeric line index: the code passes
`line` instead of `currentLine` to the `%d` verb. -/
theorem invalid_utf8_error_ignores_line_index :
    (∀ (x : Ext) (i j : Nat), keyValuesFromLine x [255] i = keyValuesFromLine x [255] j) ∧
    (∀ (x : Ext) (i : Nat), keyValuesFromLine x [255] i
      = .error (.mk (strB "line [255] has invalid utf8 bytes : " ++ [255]))) := by
  constructor
  · intro x i j
    rfl
  · intro x i
    rfl

/-! ### C6: `parseFileSource` case analysis -/

theorem startsWithB_single_iff (a : Nat) (s : GoStr) :
    startsWithB s [a] = true ↔ s.head? = some a := by
  rw [startsWithB, List.isPrefixOf_iff_prefix]
  constructor
  · rintro ⟨t, ht⟩
    rw [← ht]
    rfl
  · intro h
    cases s with
    | nil => cases h
    | cons b t =>
      injection h with h2
      exact ⟨t, by rw [h2]; rfl⟩

theorem endsWithB_single_iff (a : Nat) (s : GoStr) :
    endsWithB s [a] = true ↔ s.getLast? = some a := by
  rw [← List.head?_reverse]
  have : endsWithB s [a] = startsWithB s.reverse [a] := rfl
  rw [this, startsWithB_single_iff]

theorem dropWhile_eq_drop_len_takeWhile (p : Nat → Bool) (s : List Nat) :
    s.dropWhile p = s.drop (s.takeWhile p).length := by
  induction s with
  | nil => rfl
  | cons a t ih =>
    by_cases h : p a = true
    · simp [List.dropWhile_cons, List.takeWhile_cons, h, ih]
    · simp [List.dropWhile_cons, List.takeWhile_cons, h]

theorem dropWhile_tail_eq_drop (p : Nat → Bool) (s : List Nat) :
    (s.dropWhile p).tail = s.drop ((s.takeWhile p).length + 1) := by
  rw [← List.tail_drop]
  congr 1
  exact dropWhile_eq_drop_len_takeWhile p s

/-- C6: `parseFileSource` acts exactly by the claim's case analysis on the
count of `=` characters: zero gives (basename, verbatim); exactly one at
the start is a missing-key error; exactly one at the end is a missing-path
error; more than one is an error; exactly one elsewhere splits there. -/
theorem parseFileSource_matches_claim (s : GoStr) :
    parseFileSource s = parseFileSpecClaim s := by
  rcases hc : s.count eqByte with _ | n
  · simp [parseFileSource, parseFileSpecClaim, hc]
  · cases n with
    | zero =>
      by_cases hstart : startsWithB s [eqByte] = true
      · have hh : s.head? = some eqByte := (startsWithB_single_iff eqByte s).mp hstart
        simp [parseFileSource, parseFileSpecClaim, hc, hstart, hh, goTrimHead,
          List.drop_one]
      · have hh : s.head? ≠ some eqByte := fun h => hstart ((startsWithB_single_iff eqByte s).mpr h)
        by_cases hend : endsWithB s [eqByte] = true
        · have hl : s.getLast? = some eqByte := (endsWithB_single_iff eqByte s).mp hend
          simp [parseFileSource, parseFileSpecClaim, hc, hstart, hend, hh, hl, goTrimTail,
            List.dropLast_eq_take]
        · have hl : s.getLast? ≠ some eqByte := fun h => hend ((endsWithB_single_iff eqByte s).mpr h)
          simp [parseFileSource, parseFileSpecClaim, hc, hstart, hend, hh, hl,
            dropWhile_tail_eq_drop]
    | succ m =>
      simp [parseFileSource, parseFileSpecClaim, hc]

/-! ### C8: `parseLiteralSource` error condition and first-split behaviour -/

/-- C8: `parseLiteralSource` fails exactly when the source starts with `=`
or contains no `=`; on success the key is everything before the FIRST `=`
(so it contains no `=`), and the value is the quote-trimmed remainder after
that first `=` — which may itself contain further `=` characters. -/
theorem parseLiteralSource_error_iff (s : GoStr) :
    ((∃ e, parseLiteralSource s = .error e) ↔ (s.head? = some eqByte ∨ eqByte ∉ s)) ∧
    (∀ k v, parseLiteralSource s = .ok (k, v) →
      k = s.takeWhile (fun b => b ≠ eqByte) ∧ eqByte ∉ k ∧
      ∃ rest, s = k ++ [eqByte] ++ rest ∧ v = goTrim rest quoteCut) := by
  constructor
  · constructor
    · rintro ⟨e, he⟩
      by_contra hcon
      push_neg at hcon
      obtain ⟨h1, h2⟩ := hcon
      rw [parseLiteralSource, if_neg h1, if_pos h2] at he
      cases he
    · intro h
      rcases h with h | h
      · exact ⟨_, by rw [parseLiteralSource, if_pos h]⟩
      · by_cases hh : s.head? = some eqByte
        · exact ⟨_, by rw [parseLiteralSource, if_pos hh]⟩
        · exact ⟨_, by rw [parseLiteralSource, if_neg hh, if_neg h]⟩
  · intro k v hkv
    by_cases hh : s.head? = some eqByte
    · rw [parseLiteralSource, if_pos hh] at hkv
      cases hkv
    · by_cases hm : eqByte ∈ s
      · rw [parseLiteralSource, if_neg hh, if_pos hm] at hkv
        injection hkv with hp
        injection hp with hk hv
        obtain ⟨t, ht⟩ := dropWhile_of_mem hm
        refine ⟨hk.symm, ?_, t, ?_, ?_⟩
        · intro hmem
          rw [← hk] at hmem
          have := List.mem_takeWhile_imp hmem
          simp at this
        · rw [← hk]
          conv_lhs => rw [← List.takeWhile_append_dropWhile (fun b => decide (b ≠ eqByte)) s]
          rw [ht]
          simp
        · rw [← hv, ht]
          simp
      · rw [parseLiteralSource, if_neg hh, if_neg hm] at hkv
        cases hkv

/-- C8 witness: on `a=b=c` the parser succeeds with key `a` and value
`b=c` — the value keeps its embedded `=`. -/
theorem parseLiteralSource_error_iff_witness :
    strB "a" = (strB "a=b=c").takeWhile (fun b => b ≠ eqByte) ∧ eqByte ∉ strB "a" ∧
    ∃ rest, strB "a=b=c" = strB "a" ++ [eqByte] ++ rest ∧ strB "b=c" = goTrim rest quoteCut :=
  (parseLiteralSource_error_iff (strB "a=b=c")).2 (strB "a") (strB "b=c") (by decide)

/-! ### C3: file sources ending in `.age` -/

/-- C3, counterexample: for the file source `data.age=x.age` the code emits
the key `dat`, not `data` — `strings.TrimRight(k, ".age")` removes ALL
trailing characters drawn from `{.,a,g,e}`, not just one `.age` suffix. -/
theorem fileSource_age_key_counterexample :
    keyValuesFromFileSources extW [strB "data.age=x.age"] [] = .ok [⟨strB "dat", strB "CT"⟩] ∧
    keyValuesFromFileSources extW [strB "data.age=x.age"] [] ≠ .ok [⟨strB "data", strB "CT"⟩] := by
  constructor
  · decide
  · decide

/-- C3, amended: for a file source whose resolved path ends in `.age`, the
emitted key is `strings.TrimRight(key, ".age")` — the key with ALL trailing
`.`/`a`/`g`/`e` characters removed (which strips a `.age` suffix, but may
remove more) — and decryption is inline-YAML exactly when that trimmed key
ends in `.yaml`/`.yml` and the content does not begin with the armor
header; otherwise whole-value decryption is applied. -/
theorem fileSource_age_trimright_dispatch (x : Ext) (ids : List AgeIdentity)
    (s k fPath content : GoStr)
    (h1 : parseFileSource s = .ok (k, fPath))
    (h2 : x.ldrLoad fPath = .ok content)
    (h3 : endsWithB fPath (strB ".age") = true) :
    keyValuesFromFileSources x [s] ids =
      (if (endsWithB (goTrimRight k dotAgeCut) (strB ".yaml")
             ∨ endsWithB (goTrimRight k dotAgeCut) (strB ".yml"))
           ∧ ¬ startsWithB content armorHeader
       then x.decryptInlineYAMLWithAge content ids
       else x.decryptValueWithAge content ids).map
        (fun c => [⟨goTrimRight k dotAgeCut, c⟩]) := by
  simp only [keyValuesFromFileSources, h1, h2, h3, if_true]
  cases hd : (if (endsWithB (goTrimRight k dotAgeCut) (strB ".yaml")
                   ∨ endsWithB (goTrimRight k dotAgeCut) (strB ".yml"))
                 ∧ ¬ startsWithB content armorHeader
              then x.decryptInlineYAMLWithAge content ids
              else x.decryptValueWithAge content ids) with
  | error e => simp [hd, Except.map]
  | ok c => simp [hd, Except.map, keyValuesFromFileSources]

/-- C3 witness: the file source `data=x.age` (key `data`, path `x.age`),
with content `CT` and no armor header, is whole-value decrypted and emitted
under the trimmed key `dat`. -/
theorem fileSource_age_trimright_dispatch_witness :
    keyValuesFromFileSources extW [strB "data=x.age"] [] = .ok [⟨strB "dat", strB "CT"⟩] := by
  rw [fileSource_age_trimright_dispatch extW [] (strB "data=x.age") (strB "data")
    (strB "x.age") (strB "CT") (by decide) (by decide) (by decide)]
  decide

/-! ### C4: literal sources whose key ends in `.age` -/

/-- C4, counterexample: for the literal source `data.age=v` the code emits
the key `dat`, not `data` — the `.age` handling is a `TrimRight` character
trim, not a single suffix strip. -/
theorem literal_age_key_counterexample :
    keyValuesFromLiteralSources extW [strB "data.age=v"] [] = .ok [⟨strB "dat", strB "v"⟩] ∧
    keyValuesFromLiteralSources extW [strB "data.age=v"] [] ≠ .ok [⟨strB "data", strB "v"⟩] := by
  constructor
  · decide
  · decide

/-- C4, amended: for a literal source whose parsed key ends in `.age`, the
emitted key is `strings.TrimRight(key, ".age")` (all trailing `.`/`a`/`g`/
`e` characters removed), and the value is decrypted in inline-YAML mode
exactly when that trimmed key ends in `.yaml`/`.yml`, else in whole-value
mode; the dispatch condition depends only on the key, never on the
value's content. -/
theorem literal_age_trimright_dispatch (x : Ext) (ids : List AgeIdentity) (s k v : GoStr)
    (h1 : parseLiteralSource s = .ok (k, v))
    (h2 : endsWithB k (strB ".age") = true) :
    keyValuesFromLiteralSources x [s] ids =
      (if endsWithB (goTrimRight k dotAgeCut) (strB ".yaml")
           ∨ endsWithB (goTrimRight k dotAgeCut) (strB ".yml")
       then x.decryptInlineYAMLWithAge v ids
       else x.decryptValueWithAge v ids).map
        (fun c => [⟨goTrimRight k dotAgeCut, c⟩]) := by
  simp only [keyValuesFromLiteralSources, h1, h2, if_true]
  cases hd : (if endsWithB (goTrimRight k dotAgeCut) (strB ".yaml")
                 ∨ endsWithB (goTrimRight k dotAgeCut) (strB ".yml")
              then x.decryptInlineYAMLWithAge v ids
              else x.decryptValueWithAge v ids) with
  | error e => simp [hd, Except.map]
  | ok v1 => simp [hd, Except.map, keyValuesFromLiteralSources]

/-- C4 witness: `data.age=v` is whole-value decrypted (the trimmed key
`dat` is not YAML-like) and emitted under the key `dat`. -/
theorem literal_age_trimright_dispatch_witness :
    keyValuesFromLiteralSources extW [strB "data.age=v"] [] = .ok [⟨strB "dat", strB "v"⟩] := by
  rw [literal_age_trimright_dispatch extW [] (strB "data.age=v") (strB "data.age")
    (strB "v") (by decide) (by decide)]
  decide

/-! ### Loops as ordered per-item maps -/

theorem keyValuesFromLiteralSources_eq_seqMap (x : Ext) (ids : List AgeIdentity) (ss : List GoStr) :
    keyValuesFromLiteralSources x ss ids = seqMap (litPairItem x ids) ss := by
  induction ss with
  | nil => rfl
  | cons s ss ih =>
    rw [keyValuesFromLiteralSources, seqMap, litPairItem, ← ih]
    cases parseLiteralSource s with
    | error e => rfl
    | ok kv =>
      obtain ⟨k, v⟩ := kv
      by_cases h : endsWithB k (strB ".age") = true
      · simp only [h, if_true]
        cases (if endsWithB (goTrimRight k dotAgeCut) (strB ".yaml")
                  ∨ endsWithB (goTrimRight k dotAgeCut) (strB ".yml")
               then x.decryptInlineYAMLWithAge v ids
               else x.decryptValueWithAge v ids) with
        | error e => rfl
        | ok v1 => cases keyValuesFromLiteralSources x ss ids <;> rfl
      · simp only [h, if_false]
        cases keyValuesFromLiteralSources x ss ids <;> rfl

theorem keyValuesFromFileSources_eq_seqMap (x : Ext) (ids : List AgeIdentity) (ss : List GoStr) :
    keyValuesFromFileSources x ss ids = seqMap (filePairItem x ids) ss := by
  induction ss with
  | nil => rfl
  | cons s ss ih =>
    rw [keyValuesFromFileSources, seqMap, filePairItem, ← ih]
    cases parseFileSource s with
    | error e => rfl
    | ok kp =>
      obtain ⟨k, fPath⟩ := kp
      dsimp only
      cases x.ldrLoad fPath with
      | error e => rfl
      | ok content =>
        by_cases h : endsWithB fPath (strB ".age") = true
        · simp only [h, if_true]
          cases (if (endsWithB (goTrimRight k dotAgeCut) (strB ".yaml")
                      ∨ endsWithB (goTrimRight k dotAgeCut) (strB ".yml"))
                    ∧ ¬ startsWithB content armorHeader
                 then x.decryptInlineYAMLWithAge content ids
                 else x.decryptValueWithAge content ids) with
          | error e => rfl
          | ok c1 => cases keyValuesFromFileSources x ss ids <;> rfl
        · simp only [h, if_false]
          cases keyValuesFromFileSources x ss ids <;> rfl

theorem keyValuesFromEnvFiles_eq_seqMap (x : Ext) (ids : List AgeIdentity) (ps : List GoStr) :
    keyValuesFromEnvFiles x ps ids = (seqMap (envFileItem x ids) ps).map List.flatten := by
  induction ps with
  | nil => rfl
  | cons p ps ih =>
    rw [keyValuesFromEnvFiles, seqMap, envFileItem]
    cases x.ldrLoad p with
    | error e => rfl
    | ok content =>
      dsimp only
      cases (if endsWithB p (strB ".age") = true then x.decryptValueWithAge content ids
             else Except.ok content) with
      | error e => rfl
      | ok content1 =>
        dsimp only
        cases keyValuesFromLines x content1 with
        | error e => rfl
        | ok more =>
          dsimp only
          rw [ih]
          cases seqMap (envFileItem x ids) ps <;> rfl

theorem getAgeIdentitiesExplicit_eq_seqMap (x : Ext) (ps : List GoStr) :
    getAgeIdentitiesExplicit x ps = (seqMap (idItem x) ps).map List.flatten := by
  induction ps with
  | nil => rfl
  | cons p ps ih =>
    rw [getAgeIdentitiesExplicit, seqMap, idItem]
    cases x.filepathAbs p with
    | error e => rfl
    | ok ap =>
      dsimp only
      cases x.rootLdrLoad ap with
      | error e => rfl
      | ok content =>
        dsimp only
        cases x.parseIdentities content with
        | error e => rfl
        | ok id =>
          dsimp only
          rw [ih]
          cases seqMap (idItem x) ps <;> rfl

theorem seqMap_error_of_mem {f : GoStr → Except GoErr β} {a : GoStr} {as : List GoStr}
    (hm : a ∈ as) (he : ∃ e, f a = .error e) : ∃ e2, seqMap f as = .error e2 := by
  induction as with
  | nil => cases hm
  | cons b bs ih =>
    rw [seqMap]
    cases hb : f b with
    | error e => exact ⟨e, rfl⟩
    | ok v =>
      rcases List.mem_cons.mp hm with h1 | h2
      · obtain ⟨e, hae⟩ := he
        rw [h1, hb] at hae
        cases hae
      · obtain ⟨e2, h2e⟩ := ih h2
        rw [h2e]
        exact ⟨e2, rfl⟩

/-! ### C1: `Load` returns the ordered concatenation env, literal, file -/

/-- C1: whenever `Load` succeeds, the result is EXACTLY the env-file
pairs, then the literal pairs, then the file pairs, where each segment is
the concatenation of the per-item results in the order of the
corresponding input source list (`seqMap` processes its list left to
right). -/
theorem load_result_ordered (x : Ext) (args : KvPairSources) (pairs : List Pair)
    (h : Load x args = .ok pairs) :
    ∃ ids eps lps fps,
      getAgeIdentities x args.AgeIdentitySources = .ok ids ∧
      seqMap (envFileItem x ids) args.EnvSources = .ok eps ∧
      seqMap (litPairItem x ids) args.LiteralSources = .ok lps ∧
      seqMap (filePairItem x ids) args.FileSources = .ok fps ∧
      pairs = eps.flatten ++ lps ++ fps := by
  rw [Load] at h
  cases hi : getAgeIdentities x args.AgeIdentitySources with
  | error e =>
    simp only [hi] at h
    exact Except.noConfusion h
  | ok ids =>
    simp only [hi] at h
    cases he : keyValuesFromEnvFiles x args.EnvSources ids with
    | error e =>
      simp only [he] at h
      exact Except.noConfusion h
    | ok p1 =>
      simp only [he] at h
      cases hl : keyValuesFromLiteralSources x args.LiteralSources ids with
      | error e =>
        simp only [hl] at h
        exact Except.noConfusion h
      | ok p2 =>
        simp only [hl] at h
        cases hf : keyValuesFromFileSources x args.FileSources ids with
        | error e =>
          simp only [hf] at h
          exact Except.noConfusion h
        | ok p3 =>
          simp only [hf] at h
          injection h with h2
          rw [keyValuesFromEnvFiles_eq_seqMap] at he
          rw [keyValuesFromLiteralSources_eq_seqMap] at hl
          rw [keyValuesFromFileSources_eq_seqMap] at hf
          cases hse : seqMap (envFileItem x ids) args.EnvSources with
          | error e =>
            simp only [hse, Except.map] at he
            exact Except.noConfusion he
          | ok eps =>
            simp only [hse, Except.map] at he
            injection he with he2
            refine ⟨ids, eps, p2, p3, rfl, hse, hl, hf, ?_⟩
            rw [← h2, he2]

/-- C1 witness: a `Load` with one literal source `a=b` succeeds and
decomposes as the theorem states. -/
theorem load_result_ordered_witness :
    ∃ ids eps lps fps,
      getAgeIdentities extW [] = .ok ids ∧
      seqMap (envFileItem extW ids) [] = .ok eps ∧
      seqMap (litPairItem extW ids) [strB "a=b"] = .ok lps ∧
      seqMap (filePairItem extW ids) [] = .ok fps ∧
      [Pair.mk (strB "a") (strB "b")] = eps.flatten ++ lps ++ fps :=
  load_result_ordered extW ⟨[strB "a=b"], [], [], []⟩ [⟨strB "a", strB "b"⟩] (by decide)

/-! ### C2: any failing source item aborts `Load` with a wrapped error -/

/-- C2: every failing stage short-circuits `Load` into an error wrapped
with the failing category's name and that category's input list (and on
every error path the Go code returns a nil pair slice, modelled by
`Except.error` carrying no pairs); moreover the failure of ANY single
source item — identity, env, literal, or file — forces `Load` as a whole
to return an error. -/
theorem load_error_propagation (x : Ext) (args : KvPairSources) :
    (∀ e, getAgeIdentities x args.AgeIdentitySources = .error e →
      Load x args = .error (.wrap (strB "age identity source files: "
        ++ goFmtStrSlice args.AgeIdentitySources) e)) ∧
    (∀ ids e, getAgeIdentities x args.AgeIdentitySources = .ok ids →
      keyValuesFromEnvFiles x args.EnvSources ids = .error e →
      Load x args = .error (.wrap (strB "env source files: "
        ++ goFmtStrSlice args.EnvSources) e)) ∧
    (∀ ids p1 e, getAgeIdentities x args.AgeIdentitySources = .ok ids →
      keyValuesFromEnvFiles x args.EnvSources ids = .ok p1 →
      keyValuesFromLiteralSources x args.LiteralSources ids = .error e →
      Load x args = .error (.wrap (strB "literal sources "
        ++ goFmtStrSlice args.LiteralSources) e)) ∧
    (∀ ids p1 p2 e, getAgeIdentities x args.AgeIdentitySources = .ok ids →
      keyValuesFromEnvFiles x args.EnvSources ids = .ok p1 →
      keyValuesFromLiteralSources x args.LiteralSources ids = .ok p2 →
      keyValuesFromFileSources x args.FileSources ids = .error e →
      Load x args = .error (.wrap (strB "file sources: "
        ++ goFmtStrSlice args.FileSources) e)) ∧
    (∀ p e, p ∈ args.AgeIdentitySources → idItem x p = .error e →
      ∃ e2, Load x args = .error e2) ∧
    (∀ ids p e, getAgeIdentities x args.AgeIdentitySources = .ok ids →
      p ∈ args.EnvSources → envFileItem x ids p = .error e →
      ∃ e2, Load x args = .error e2) ∧
    (∀ ids s e, getAgeIdentities x args.AgeIdentitySources = .ok ids →
      s ∈ args.LiteralSources → litPairItem x ids s = .error e →
      ∃ e2, Load x args = .error e2) ∧
    (∀ ids s e, getAgeIdentities x args.AgeIdentitySources = .ok ids →
      s ∈ args.FileSources → filePairItem x ids s = .error e →
      ∃ e2, Load x args = .error e2) := by
  refine ⟨?_, ?_, ?_, ?_, ?_, ?_, ?_, ?_⟩
  · intro e he
    simp only [Load, he]
  · intro ids e hok he
    simp only [Load, hok, he]
  · intro ids p1 e hok henv hlit
    simp only [Load, hok, henv, hlit]
  · intro ids p1 p2 e hok henv hlit hfile
    simp only [Load, hok, henv, hlit, hfile]
  · intro p e hp hie
    have hne : args.AgeIdentitySources.length > 0 := by
      cases hs : args.AgeIdentitySources with
      | nil => rw [hs] at hp; cases hp
      | cons a t => simp
    obtain ⟨e2, he2⟩ := seqMap_error_of_mem hp ⟨e, hie⟩
    have hga : getAgeIdentities x args.AgeIdentitySources = .error e2 := by
      rw [getAgeIdentities, if_pos hne, getAgeIdentitiesExplicit_eq_seqMap, he2]
      rfl
    exact ⟨GoErr.wrap (strB "age identity source files: "
      ++ goFmtStrSlice args.AgeIdentitySources) e2, by simp only [Load, hga]⟩
  · intro ids p e hok hp hitem
    obtain ⟨e2, he2⟩ := seqMap_error_of_mem hp ⟨e, hitem⟩
    have henv : keyValuesFromEnvFiles x args.EnvSources ids = .error e2 := by
      rw [keyValuesFromEnvFiles_eq_seqMap, he2]
      rfl
    exact ⟨GoErr.wrap (strB "env source files: "
      ++ goFmtStrSlice args.EnvSources) e2, by simp only [Load, hok, henv]⟩
  · intro ids s e hok hs hitem
    obtain ⟨e2, he2⟩ := seqMap_error_of_mem hs ⟨e, hitem⟩
    have hlit : keyValuesFromLiteralSources x args.LiteralSources ids = .error e2 := by
      rw [keyValuesFromLiteralSources_eq_seqMap, he2]
    cases henv : keyValuesFromEnvFiles x args.EnvSources ids with
    | error e3 =>
      exact ⟨GoErr.wrap (strB "env source files: "
        ++ goFmtStrSlice args.EnvSources) e3, by simp only [Load, hok, henv]⟩
    | ok p1 =>
      exact ⟨GoErr.wrap (strB "literal sources "
        ++ goFmtStrSlice args.LiteralSources) e2, by simp only [Load, hok, henv, hlit]⟩
  · intro ids s e hok hs hitem
    obtain ⟨e2, he2⟩ := seqMap_error_of_mem hs ⟨e, hitem⟩
    have hfile : keyValuesFromFileSources x args.FileSources ids = .error e2 := by
      rw [keyValuesFromFileSources_eq_seqMap, he2]
    cases henv : keyValuesFromEnvFiles x args.EnvSources ids with
    | error e3 =>
      exact ⟨GoErr.wrap (strB "env source files: "
        ++ goFmtStrSlice args.EnvSources) e3, by simp only [Load, hok, henv]⟩
    | ok p1 =>
      cases hlit : keyValuesFromLiteralSources x args.LiteralSources ids with
      | error e4 =>
        exact ⟨GoErr.wrap (strB "literal sources "
          ++ goFmtStrSlice args.LiteralSources) e4, by simp only [Load, hok, henv, hlit]⟩
      | ok p2 =>
        exact ⟨GoErr.wrap (strB "file sources: "
          ++ goFmtStrSlice args.FileSources) e2, by simp only [Load, hok, henv, hlit, hfile]⟩

/-- C2 witness: a `Load` whose only source is the malformed literal `x`
fails as a whole, with the error wrapped in the literal-sources category
and the category's input list. -/
theorem load_error_propagation_witness :
    Load extW ⟨[strB "x"], [], [], []⟩
      = .error (.wrap (strB "literal sources " ++ goFmtStrSlice [strB "x"])
          (.mk (strB "invalid literal source x, expected key=value"))) :=
  (load_error_propagation extW ⟨[strB "x"], [], [], []⟩).2.2.1 [] []
    (.mk (strB "invalid literal source x, expected key=value"))
    (by decide) (by decide) (by decide)

/-! ### UTF-8 infrastructure for the env-line parser (C7) -/

theorem utf8Encode1_eq1 (c : Nat) (h : c < 0x80) : utf8Encode1 c = [c] := by
  simp only [utf8Encode1]
  rw [if_pos h]

theorem utf8Encode1_eq2 (c : Nat) (h1 : 0x80 ≤ c) (h2 : c < 0x800) :
    utf8Encode1 c = [0xC0 + c / 64, 0x80 + c % 64] := by
  simp only [utf8Encode1]
  rw [if_neg (by omega), if_pos (by omega)]

theorem utf8Encode1_eq3 (c : Nat) (h1 : 0x800 ≤ c) (h2 : c < 0x10000) :
    utf8Encode1 c = [0xE0 + c / 4096, 0x80 + c / 64 % 64, 0x80 + c % 64] := by
  simp only [utf8Encode1]
  rw [if_neg (by omega), if_neg (by omega), if_pos (by omega)]

theorem utf8Encode1_eq4 (c : Nat) (h1 : 0x10000 ≤ c) :
    utf8Encode1 c = [0xF0 + c / 262144, 0x80 + c / 4096 % 64, 0x80 + c / 64 % 64, 0x80 + c % 64] := by
  simp only [utf8Encode1]
  rw [if_neg (by omega), if_neg (by omega), if_neg (by omega)]

theorem utf8Encode_cons (c : Nat) (cs : List Nat) :
    utf8Encode (c :: cs) = utf8Encode1 c ++ utf8Encode cs := rfl

/-! ### UTF-8 infrastructure (C7): fuel elimination and step lemmas -/

theorem decodeRune_shrink {l : List Nat} {c : Nat} {r : List Nat}
    (h : decodeRune l = some (c, r)) : r.length < l.length := by
  rcases l with _ | ⟨b, _ | ⟨b1, _ | ⟨b2, _ | ⟨b3, r4⟩⟩⟩⟩ <;>
      (rw [decodeRune.eq_def] at h
       dsimp only at h) <;>
    first
      | exact Option.noConfusion h
      | (split_ifs at h <;>
          first
            | exact Option.noConfusion h
            | (simp only [Option.some.injEq, Prod.mk.injEq] at h
               obtain ⟨hc, hr⟩ := h
               subst hr
               simp only [List.length_cons]
               omega))

theorem utf8DecodeF_fuel : ∀ (f1 f2 : Nat) (l : List Nat),
    l.length ≤ f1 → l.length ≤ f2 → utf8DecodeF f1 l = utf8DecodeF f2 l := by
  intro f1
  induction f1 with
  | zero =>
    intro f2 l h1 h2
    cases l with
    | nil =>
      cases f2 <;> rfl
    | cons b r => simp at h1
  | succ g1 ih =>
    intro f2 l h1 h2
    cases l with
    | nil => cases f2 <;> rfl
    | cons b r =>
      cases f2 with
      | zero => simp at h2
      | succ g2 =>
        rw [utf8DecodeF, utf8DecodeF]
        cases hd : decodeRune (b :: r) with
        | none => rfl
        | some cr =>
          obtain ⟨c, rr⟩ := cr
          dsimp only
          have hlen := decodeRune_shrink hd
          simp only [List.length_cons] at h1 h2 hlen
          rw [ih g2 rr (by omega) (by omega)]

theorem utf8Decode_cons_step (b : Nat) (r0 : List Nat) :
    utf8Decode (b :: r0) = (match decodeRune (b :: r0) with
      | none => none
      | some (c, r) => (utf8Decode r).map (fun cs => c :: cs)) := by
  cases hd : decodeRune (b :: r0) with
  | none =>
    dsimp only
    rw [utf8Decode]
    simp only [List.length_cons]
    rw [utf8DecodeF, hd]
  | some cr =>
    obtain ⟨c, rr⟩ := cr
    dsimp only
    rw [utf8Decode]
    simp only [List.length_cons]
    rw [utf8DecodeF, hd]
    dsimp only
    have hlen := decodeRune_shrink hd
    simp only [List.length_cons] at hlen
    rw [utf8DecodeF_fuel r0.length rr.length rr (by omega) le_rfl]
    rfl

theorem trimLeftSpaceBF_fuel : ∀ (f1 f2 : Nat) (l : List Nat),
    l.length ≤ f1 → l.length ≤ f2 → trimLeftSpaceBF f1 l = trimLeftSpaceBF f2 l := by
  intro f1
  induction f1 with
  | zero =>
    intro f2 l h1 h2
    cases l with
    | nil => cases f2 <;> rfl
    | cons b r => simp at h1
  | succ g1 ih =>
    intro f2 l h1 h2
    cases l with
    | nil => cases f2 <;> rfl
    | cons b r =>
      cases f2 with
      | zero => simp at h2
      | succ g2 =>
        rw [trimLeftSpaceBF, trimLeftSpaceBF]
        cases hd : decodeRune (b :: r) with
        | none => rfl
        | some cr =>
          obtain ⟨c, rr⟩ := cr
          dsimp only
          have hlen := decodeRune_shrink hd
          simp only [List.length_cons] at h1 h2 hlen
          by_cases hs : isSpaceCp c = true
          · rw [if_pos hs, if_pos hs, ih g2 rr (by omega) (by omega)]
          · rw [if_neg hs, if_neg hs]

theorem trimLeftSpaceB_step (b : Nat) (r0 : List Nat) :
    trimLeftSpaceB (b :: r0) = (match decodeRune (b :: r0) with
      | none => b :: r0
      | some (c, r) => if isSpaceCp c then trimLeftSpaceB r else b :: r0) := by
  cases hd : decodeRune (b :: r0) with
  | none =>
    dsimp only
    rw [trimLeftSpaceB]
    simp only [List.length_cons]
    rw [trimLeftSpaceBF, hd]
  | some cr =>
    obtain ⟨c, rr⟩ := cr
    dsimp only
    rw [trimLeftSpaceB]
    simp only [List.length_cons]
    rw [trimLeftSpaceBF, hd]
    dsimp only
    have hlen := decodeRune_shrink hd
    simp only [List.length_cons] at hlen
    by_cases hs : isSpaceCp c = true
    · rw [if_pos hs, if_pos hs,
        trimLeftSpaceBF_fuel r0.length rr.length rr (by omega) le_rfl]
      rfl
    · rw [if_neg hs, if_neg hs]
/-- A successful single-rune decode exhibits the consumed bytes as the
encoding of the decoded code point, which is a Unicode scalar value. -/
theorem decodeRune_enc {l : List Nat} {c : Nat} {r : List Nat}
    (h : decodeRune l = some (c, r)) : l = utf8Encode1 c ++ r ∧ validCp c := by
  rcases l with _ | ⟨b, _ | ⟨b1, _ | ⟨b2, _ | ⟨b3, r4⟩⟩⟩⟩ <;>
      (rw [decodeRune.eq_def] at h
       dsimp only at h) <;>
    first
      | exact Option.noConfusion h
      | (split_ifs at h <;>
          first
            | exact Option.noConfusion h
            | (simp only [Option.some.injEq, Prod.mk.injEq] at h
               obtain ⟨hc, hr⟩ := h
               subst hc
               subst hr
               refine ⟨?_, ?_⟩
               · simp only [utf8Encode1]
                 split_ifs <;>
                   first
                     | (simp only [List.cons_append, List.nil_append, List.cons.injEq,
                          eq_self_iff_true, and_true, true_and]
                        done)
                     | (simp only [List.cons_append, List.nil_append, List.cons.injEq,
                          eq_self_iff_true, and_true, true_and]
                        omega)
               · simp only [validCp]
                 omega))

/-- Decoding inverts encoding for every Unicode scalar value, whatever
bytes follow. -/
theorem enc_decodeRune (c : Nat) (hv : validCp c) (rest : List Nat) :
    decodeRune (utf8Encode1 c ++ rest) = some (c, rest) := by
  have hv2 : c < 0xD800 ∨ (0xE000 ≤ c ∧ c < 0x110000) := hv
  by_cases h1 : c < 0x80
  · rw [utf8Encode1_eq1 c h1]
    simp only [List.cons_append, List.nil_append]
    rw [decodeRune.eq_def]
    dsimp only
    rw [if_pos h1]
  · by_cases h2 : c < 0x800
    · rw [utf8Encode1_eq2 c (by omega) h2]
      simp only [List.cons_append, List.nil_append]
      rw [decodeRune.eq_def]
      dsimp only
      rw [if_neg (by omega), if_pos (by omega), if_pos (by omega)]
      simp only [Option.some.injEq, Prod.mk.injEq, eq_self_iff_true, and_true]
      omega
    · by_cases h3 : c < 0x10000
      · rw [utf8Encode1_eq3 c (by omega) h3]
        simp only [List.cons_append, List.nil_append]
        rw [decodeRune.eq_def]
        dsimp only
        rw [if_neg (by omega), if_neg (by omega), if_pos (by omega)]
        have hcond : (if 0xE0 + c / 4096 = 0xE0 then
              0xA0 ≤ 0x80 + c / 64 % 64 ∧ 0x80 + c / 64 % 64 ≤ 0xBF
            else if 0xE0 + c / 4096 = 0xED then
              0x80 ≤ 0x80 + c / 64 % 64 ∧ 0x80 + c / 64 % 64 ≤ 0x9F
            else 0x80 ≤ 0x80 + c / 64 % 64 ∧ 0x80 + c / 64 % 64 ≤ 0xBF) ∧
            (0x80 ≤ 0x80 + c % 64 ∧ 0x80 + c % 64 ≤ 0xBF) := by
          constructor
          · split_ifs <;> omega
          · omega
        rw [if_pos hcond]
        simp only [Option.some.injEq, Prod.mk.injEq, eq_self_iff_true, and_true]
        omega
      · rw [utf8Encode1_eq4 c (by omega)]
        simp only [List.cons_append, List.nil_append]
        rw [decodeRune.eq_def]
        dsimp only
        rw [if_neg (by omega), if_neg (by omega), if_neg (by omega), if_pos (by omega)]
        have hcond : (if 0xF0 + c / 262144 = 0xF0 then
              0x90 ≤ 0x80 + c / 4096 % 64 ∧ 0x80 + c / 4096 % 64 ≤ 0xBF
            else if 0xF0 + c / 262144 = 0xF4 then
              0x80 ≤ 0x80 + c / 4096 % 64 ∧ 0x80 + c / 4096 % 64 ≤ 0x8F
            else 0x80 ≤ 0x80 + c / 4096 % 64 ∧ 0x80 + c / 4096 % 64 ≤ 0xBF) ∧
            (0x80 ≤ 0x80 + c / 64 % 64 ∧ 0x80 + c / 64 % 64 ≤ 0xBF) ∧
            (0x80 ≤ 0x80 + c % 64 ∧ 0x80 + c % 64 ≤ 0xBF) := by
          refine ⟨?_, by omega, by omega⟩
          split_ifs <;> omega
        rw [if_pos hcond]
        simp only [Option.some.injEq, Prod.mk.injEq, eq_self_iff_true, and_true]
        omega

/-- Soundness of strict UTF-8 decoding: a successful decode exhibits the
byte list as the encoding of its code points, and every decoded code point
is a Unicode scalar value. -/
theorem utf8Decode_encode : ∀ (cs : List Nat) (l : List Nat),
    utf8Decode l = some cs → l = utf8Encode cs ∧ ∀ c ∈ cs, validCp c := by
  intro cs
  induction cs with
  | nil =>
    intro l h
    cases l with
    | nil => exact ⟨rfl, by intro c hc; cases hc⟩
    | cons b r0 =>
      rw [utf8Decode_cons_step] at h
      cases hd : decodeRune (b :: r0) with
      | none =>
        rw [hd] at h
        exact Option.noConfusion h
      | some cr =>
        obtain ⟨c, rr⟩ := cr
        rw [hd] at h
        dsimp only at h
        rw [Option.map_eq_some'] at h
        obtain ⟨cs2, hd2, hcs⟩ := h
        exact List.noConfusion hcs
  | cons c cs2 ih =>
    intro l h
    cases l with
    | nil =>
      rw [utf8Decode] at h
      injection h with h2
      exact List.noConfusion h2
    | cons b r0 =>
      rw [utf8Decode_cons_step] at h
      cases hd : decodeRune (b :: r0) with
      | none =>
        rw [hd] at h
        exact Option.noConfusion h
      | some cr =>
        obtain ⟨c0, rr⟩ := cr
        rw [hd] at h
        dsimp only at h
        rw [Option.map_eq_some'] at h
        obtain ⟨cs3, hd2, hcs⟩ := h
        injection hcs with hc0 hcs3
        subst hc0
        subst hcs3
        obtain ⟨hb, hvc⟩ := decodeRune_enc hd
        obtain ⟨he, hv2⟩ := ih rr hd2
        refine ⟨?_, ?_⟩
        · rw [utf8Encode_cons, ← he, hb]
        · intro c2 hc2
          rcases List.mem_cons.mp hc2 with hx | hx
          · subst hx
            exact hvc
          · exact hv2 c2 hx

theorem mem_of_mem_dropWhile {p : Nat → Bool} : ∀ {l : List Nat} {a : Nat},
    a ∈ l.dropWhile p → a ∈ l := by
  intro l
  induction l with
  | nil => intro a h; exact h
  | cons b t ih =>
    intro a h
    rw [List.dropWhile_cons] at h
    by_cases hb : p b = true
    · rw [if_pos hb] at h
      exact List.mem_cons.mpr (Or.inr (ih h))
    · rw [if_neg hb] at h
      exact h

theorem mem_utf8Encode1_ascii {a c : Nat} (ha : a < 0x80) :
    a ∈ utf8Encode1 c ↔ c = a := by
  by_cases h1 : c < 0x80
  · rw [utf8Encode1_eq1 c h1]
    simp [eq_comm]
  · by_cases h2 : c < 0x800
    · rw [utf8Encode1_eq2 c (by omega) h2]
      simp only [List.mem_cons, List.not_mem_nil, or_false]
      constructor
      · intro h
        omega
      · intro h
        omega
    · by_cases h3 : c < 0x10000
      · rw [utf8Encode1_eq3 c (by omega) h3]
        simp only [List.mem_cons, List.not_mem_nil, or_false]
        constructor
        · intro h
          omega
        · intro h
          omega
      · rw [utf8Encode1_eq4 c (by omega)]
        simp only [List.mem_cons, List.not_mem_nil, or_false]
        constructor
        · intro h
          omega
        · intro h
          omega

theorem mem_utf8Encode_ascii {a : Nat} (ha : a < 0x80) :
    ∀ (cs : List Nat), a ∈ utf8Encode cs ↔ a ∈ cs := by
  intro cs
  induction cs with
  | nil => simp [utf8Encode]
  | cons c t ih =>
    rw [utf8Encode_cons]
    simp only [List.mem_append, List.mem_cons, ih, mem_utf8Encode1_ascii ha]
    constructor
    · rintro (h | h)
      · exact Or.inl h.symm
      · exact Or.inr h
    · rintro (h | h)
      · exact Or.inl h.symm
      · exact Or.inr h

theorem all_ne_utf8Encode1 {a c : Nat} (ha : a < 0x80) (hc : c ≠ a) :
    ∀ b ∈ utf8Encode1 c, (fun b => decide (b ≠ a)) b = true := by
  intro b hb
  simp only [decide_eq_true_eq]
  intro hba
  exact hc ((mem_utf8Encode1_ascii ha).mp (hba ▸ hb))

theorem takeWhile_ne_utf8Encode {a : Nat} (ha : a < 0x80) :
    ∀ (cs : List Nat), (utf8Encode cs).takeWhile (fun b => b ≠ a)
      = utf8Encode (cs.takeWhile (fun c => c ≠ a)) := by
  intro cs
  induction cs with
  | nil => rfl
  | cons c t ih =>
    rw [utf8Encode_cons]
    by_cases hc : c = a
    · subst hc
      rw [utf8Encode1_eq1 c ha]
      simp [List.takeWhile_cons, utf8Encode]
    · rw [takeWhile_append_of_all _ (all_ne_utf8Encode1 ha hc), ih]
      have hs : (c :: t).takeWhile (fun c => decide (c ≠ a)) = c :: t.takeWhile (fun c => decide (c ≠ a)) := by
        rw [List.takeWhile_cons, if_pos (by simp [hc])]
      rw [hs, utf8Encode_cons]

theorem dropWhile_ne_utf8Encode {a : Nat} (ha : a < 0x80) :
    ∀ (cs : List Nat), (utf8Encode cs).dropWhile (fun b => b ≠ a)
      = utf8Encode (cs.dropWhile (fun c => c ≠ a)) := by
  intro cs
  induction cs with
  | nil => rfl
  | cons c t ih =>
    rw [utf8Encode_cons]
    by_cases hc : c = a
    · subst hc
      rw [utf8Encode1_eq1 c ha]
      have hL : ([c] ++ utf8Encode t).dropWhile (fun b => b ≠ c) = c :: utf8Encode t := by
        simp [List.dropWhile_cons]
      have hR : (c :: t).dropWhile (fun x => x ≠ c) = c :: t := by
        simp [List.dropWhile_cons]
      rw [hL, hR, utf8Encode_cons, utf8Encode1_eq1 c ha]
      rfl
    · rw [dropWhile_append_of_all _ (all_ne_utf8Encode1 ha hc), ih]
      have hs : (c :: t).dropWhile (fun c => decide (c ≠ a)) = t.dropWhile (fun c => decide (c ≠ a)) := by
        rw [List.dropWhile_cons, if_pos (by simp [hc])]
      rw [hs]

theorem utf8Encode1_ne_nil (c : Nat) : utf8Encode1 c ≠ [] := by
  by_cases h1 : c < 0x80
  · rw [utf8Encode1_eq1 c h1]
    simp
  · by_cases h2 : c < 0x800
    · rw [utf8Encode1_eq2 c (by omega) h2]
      simp
    · by_cases h3 : c < 0x10000
      · rw [utf8Encode1_eq3 c (by omega) h3]
        simp
      · rw [utf8Encode1_eq4 c (by omega)]
        simp

theorem utf8Encode_eq_nil_iff (cs : List Nat) : utf8Encode cs = [] ↔ cs = [] := by
  cases cs with
  | nil => simp [utf8Encode]
  | cons c t =>
    rw [utf8Encode_cons]
    constructor
    · intro h
      exact absurd (List.append_eq_nil.mp h).1 (utf8Encode1_ne_nil c)
    · intro h
      exact List.noConfusion h

theorem head?_utf8Encode_ascii {a : Nat} (ha : a < 0x80) (cs : List Nat) :
    (utf8Encode cs).head? = some a ↔ cs.head? = some a := by
  cases cs with
  | nil => simp [utf8Encode]
  | cons c t =>
    rw [utf8Encode_cons]
    by_cases h1 : c < 0x80
    · rw [utf8Encode1_eq1 c h1]
      simp
    · by_cases h2 : c < 0x800
      · rw [utf8Encode1_eq2 c (by omega) h2]
        simp only [List.cons_append, List.head?_cons, Option.some.injEq]
        constructor
        · intro h
          omega
        · intro h
          omega
      · by_cases h3 : c < 0x10000
        · rw [utf8Encode1_eq3 c (by omega) h3]
          simp only [List.cons_append, List.head?_cons, Option.some.injEq]
          constructor
          · intro h
            omega
          · intro h
            omega
        · rw [utf8Encode1_eq4 c (by omega)]
          simp only [List.cons_append, List.head?_cons, Option.some.injEq]
          constructor
          · intro h
            omega
          · intro h
            omega

theorem goTrimHead_bom (cs : List Nat) :
    goTrimHead (utf8Encode cs) utf8bom
      = utf8Encode (if cs.head? = some 0xFEFF then cs.tail else cs) := by
  cases cs with
  | nil =>
    simp [utf8Encode, goTrimHead, startsWithB, utf8bom, List.isPrefixOf]
  | cons c t =>
    by_cases hc : c = 0xFEFF
    · subst hc
      rw [utf8Encode_cons]
      have he : utf8Encode1 0xFEFF = [0xEF, 0xBB, 0xBF] := by decide
      rw [he]
      rw [goTrimHead, if_pos (by
        rw [startsWithB, List.isPrefixOf_iff_prefix]
        exact List.prefix_append [0xEF, 0xBB, 0xBF] (utf8Encode t))]
      simp [utf8bom]
    · have hns : startsWithB (utf8Encode (c :: t)) utf8bom = false := by
        rw [Bool.eq_false_iff]
        intro hp
        rw [startsWithB, List.isPrefixOf_iff_prefix] at hp
        rw [utf8Encode_cons] at hp
        by_cases h1 : c < 0x80
        · rw [utf8Encode1_eq1 c h1] at hp
          simp only [utf8bom, List.cons_append, List.nil_append, List.cons_prefix_cons] at hp
          omega
        · by_cases h2 : c < 0x800
          · rw [utf8Encode1_eq2 c (by omega) h2] at hp
            simp only [utf8bom, List.cons_append, List.nil_append, List.cons_prefix_cons] at hp
            omega
          · by_cases h3 : c < 0x10000
            · rw [utf8Encode1_eq3 c (by omega) h3] at hp
              simp only [utf8bom, List.cons_append, List.nil_append, List.cons_prefix_cons] at hp
              exact hc (by omega)
            · rw [utf8Encode1_eq4 c (by omega)] at hp
              simp only [utf8bom, List.cons_append, List.nil_append, List.cons_prefix_cons] at hp
              omega
      rw [goTrimHead, if_neg (by simp [hns])]
      have : (c :: t).head? = some 0xFEFF ↔ False := by
        simp [hc]
      rw [if_neg (by simp [hc])]

theorem trimLeft_utf8Encode : ∀ (cs : List Nat), (∀ c ∈ cs, validCp c) →
    trimLeftSpaceB (utf8Encode cs) = utf8Encode (cs.dropWhile isSpaceCp) := by
  intro cs
  induction cs with
  | nil => intro hv; rfl
  | cons c t ih =>
    intro hv
    have hvc : validCp c := hv c (List.mem_cons.mpr (Or.inl rfl))
    have hstep := enc_decodeRune c hvc (utf8Encode t)
    rw [utf8Encode_cons]
    cases henc : utf8Encode1 c with
    | nil => exact absurd henc (utf8Encode1_ne_nil c)
    | cons b0 brest =>
      rw [henc] at hstep
      rw [List.cons_append, trimLeftSpaceB_step]
      rw [show (b0 :: (brest ++ utf8Encode t)) = (b0 :: brest) ++ utf8Encode t from rfl, hstep]
      dsimp only
      by_cases hs : isSpaceCp c = true
      · rw [if_pos hs, ih (fun c2 hc2 => hv c2 (List.mem_cons.mpr (Or.inr hc2)))]
        rw [List.dropWhile_cons, if_pos hs]
      · rw [if_neg hs, List.dropWhile_cons, if_neg hs, utf8Encode_cons, henc]

/-! ### C7: the env-line parser follows the spec's eight steps -/

/-- C7: on every well-formed UTF-8 line, `keyValuesFromLine` coincides with
the spec-side parser `specLineParse` run on the line's code points: the
byte-order mark is stripped only at line index 0, all leading Unicode white
space is dropped, an empty or `#`-starting remainder yields the skip
marker, the line is split at the FIRST `=` (so embedded `=` stays in the
value), and a missing `=` resolves the value from the process environment,
the empty string when the variable is unset. -/
theorem keyValuesFromLine_matches_spec (x : Ext) (line : GoStr) (cs : List Nat) (i : Nat)
    (h : utf8Decode line = some cs) :
    keyValuesFromLine x line i = specLineParse x cs i := by
  obtain ⟨henc, hval⟩ := utf8Decode_encode cs line h
  subst henc
  have hvb : utf8Valid (utf8Encode cs) = true := by
    rw [utf8Valid, h]
    rfl
  rw [keyValuesFromLine, specLineParse]
  dsimp only
  rw [if_neg (by simp [hvb])]
  have h1 : (if i = 0 then goTrimHead (utf8Encode cs) utf8bom else utf8Encode cs)
      = utf8Encode (if i = 0 then (if cs.head? = some 0xFEFF then cs.tail else cs) else cs) := by
    by_cases hi : i = 0
    · rw [if_pos hi, if_pos hi, goTrimHead_bom]
    · rw [if_neg hi, if_neg hi]
  rw [h1]
  have hval1 : ∀ c ∈ (if i = 0 then (if cs.head? = some 0xFEFF then cs.tail else cs) else cs),
      validCp c := by
    intro c hc
    apply hval
    by_cases hi : i = 0
    · rw [if_pos hi] at hc
      by_cases hb : cs.head? = some 0xFEFF
      · rw [if_pos hb] at hc
        exact List.tail_subset cs hc
      · rw [if_neg hb] at hc
        exact hc
    · rw [if_neg hi] at hc
      exact hc
  rw [trimLeft_utf8Encode _ hval1]
  set cs2 := ((if i = 0 then (if cs.head? = some 0xFEFF then cs.tail else cs) else cs).dropWhile
    isSpaceCp) with hcs2
  have hcond : (utf8Encode cs2 = [] ∨ (utf8Encode cs2).head? = some 35)
      ↔ (cs2 = [] ∨ cs2.head? = some 35) := by
    apply or_congr
    · exact utf8Encode_eq_nil_iff cs2
    · exact head?_utf8Encode_ascii (by omega) cs2
  by_cases hce : cs2 = [] ∨ cs2.head? = some 35
  · rw [if_pos (hcond.mpr hce), if_pos hce]
  · rw [if_neg (fun hx => hce (hcond.mp hx)), if_neg hce]
    rw [takeWhile_ne_utf8Encode (by decide) cs2]
    cases hvn : x.isEnvVarName (utf8Encode (cs2.takeWhile (fun c => c ≠ eqByte))) with
    | some e => rfl
    | none =>
      have hmem : (eqByte ∈ utf8Encode cs2) ↔ eqByte ∈ cs2 :=
        mem_utf8Encode_ascii (by decide) cs2
      by_cases hm : eqByte ∈ cs2
      · rw [if_pos (hmem.mpr hm), if_pos hm]
        rw [dropWhile_ne_utf8Encode (by decide) cs2]
        obtain ⟨t, ht⟩ := dropWhile_of_mem hm
        rw [ht, utf8Encode_cons, utf8Encode1_eq1 eqByte (by decide)]
        rfl
      · rw [if_neg (fun hx => hm (hmem.mp hx)), if_neg hm]

/-- C7 witness: a BOM-prefixed line `  FOO=bar=baz` at index 0 is parsed
identically by the code and the spec-side parser. -/
theorem keyValuesFromLine_matches_spec_witness :
    keyValuesFromLine extW (utf8bom ++ strB "  FOO=bar=baz") 0
      = specLineParse extW (0xFEFF :: cpOf "  FOO=bar=baz") 0 :=
  keyValuesFromLine_matches_spec extW (utf8bom ++ strB "  FOO=bar=baz")
    (0xFEFF :: cpOf "  FOO=bar=baz") 0 (by decide)

end KV
